import Mathlib

/-
Shallow embedding of `src/midi_processor.py` (class `MidiProcessor` and the
`__main__` driver).  Python integers become `Nat` (all quantities involved are
non-negative), the float mean computations become exact rationals `ℚ`, the
tick-keyed Python dict `self.beats` becomes an association list with unique
keys and dict insertion-order semantics, and `sorted(...)` becomes a
structural sort by key.
-/

/-- An attack event as stored in `self.beats`: the fields of a `note_on`
message that the processor reads after insertion. -/
structure NoteOn where
  channel : Nat
  note : Nat
  velocity : Nat
deriving DecidableEq, Repr

/-- One MIDI message of a track, as delivered by the external parser: every
message carries a delta `time`; the processor dispatches on the message type
(`note_on`, `set_tempo`, `time_signature`, anything else). -/
inductive Message where
  | noteOn (time channel note velocity : Nat)
  | setTempo (time tempo : Nat)
  | timeSignature (time numerator denominator : Nat)
  | other (time : Nat)
deriving DecidableEq, Repr

/-- Delta time of a message (`message.time` in the source); present on every
message kind. -/
def Message.time : Message → Nat
  | .noteOn t _ _ _ => t
  | .setTempo t _ => t
  | .timeSignature t _ _ => t
  | .other t => t

/-- Whether a message is a `time_signature` meta event. -/
def Message.isTimeSignature : Message → Bool
  | .timeSignature _ _ _ => true
  | _ => false

/-- Whether a message is a `set_tempo` meta event. -/
def Message.isSetTempo : Message → Bool
  | .setTempo _ _ => true
  | _ => false

/-- The mutable fields of `MidiProcessor` that `process_tracks` updates:
`self.beats`, `self.numerator`, `self.denominator`, `self.tempo` and
`self.max_track_len`.  `self.beats` is modelled as an association list from
absolute tick to the list of retained `note_on` events at that tick. -/
structure ProcState where
  beats : List (Nat × List NoteOn)
  numerator : Nat
  denominator : Nat
  tempo : Nat
  max_track_len : Nat
deriving DecidableEq, Repr

/-- The field initialisation in `MidiProcessor.__init__`:
`self.beats = {}`, `self.numerator, self.denominator = 4, 4`,
`self.tempo, _, self.max_track_len = 0, 0, 0`. -/
def initState : ProcState := ⟨[], 4, 4, 0, 0⟩

/-- Dict insertion of a qualifying `note_on` into `self.beats` (source lines
42-51): a fresh tick key is appended with a singleton list; at an existing
tick the event is appended only when no stored event has the same `note`. -/
def addBeat : List (Nat × List NoteOn) → Nat → NoteOn → List (Nat × List NoteOn)
  | [], t, m => [(t, [m])]
  | (t', l) :: rest, t, m =>
    if t' = t then
      if l.any (fun b => b.note = m.note) then (t', l) :: rest
      else (t', l ++ [m]) :: rest
    else (t', l) :: addBeat rest t m

/-- The body of the inner message loop of `process_tracks` (source lines
35-57), acting on the processor state paired with the running absolute-tick
counter of the current track.  Every message's delta time is accumulated; a
`note_on` is retained when `velocity > 0 and channel == 9`; `set_tempo` and
`time_signature` overwrite the file-level metadata. -/
def processMessage (p : ProcState × Nat) (m : Message) : ProcState × Nat :=
  let s := p.1
  let abs := p.2 + m.time
  match m with
  | .noteOn _ ch note vel =>
    if 0 < vel ∧ ch = 9 then ({ s with beats := addBeat s.beats abs ⟨ch, note, vel⟩ }, abs)
    else (s, abs)
  | .setTempo _ tp => ({ s with tempo := tp }, abs)
  | .timeSignature _ n d => ({ s with numerator := n, denominator := d }, abs)
  | .other _ => (s, abs)

/-- Processing of one track (one iteration of the outer loop of
`process_tracks`): the counter restarts at 0, the messages are folded, and
`max_track_len` is raised to the track's final counter when larger. -/
def processTrack (s : ProcState) (track : List Message) : ProcState :=
  let r := track.foldl processMessage (s, 0)
  if r.1.max_track_len < r.2 then { r.1 with max_track_len := r.2 } else r.1

/-- `MidiProcessor.process_tracks`: fold all tracks over the initial state. -/
def process_tracks (tracks : List (List Message)) : ProcState :=
  tracks.foldl processTrack initState

/-- `MidiProcessor.setup_variables`:
`self.ordered_beats = OrderedDict(sorted(self.beats.items()))`.  Python's
stable sort of `(tick, events)` pairs compares ticks first; since the dict's
tick keys are unique it never compares the second components, so any
comparison sort by key yields the same list; a structural insertion sort is
used here. -/
def sortBeats (bs : List (Nat × List NoteOn)) : List (Nat × List NoteOn) :=
  List.insertionSort (fun a b => a.1 ≤ b.1) bs

/-- Insertion into `self.instruments` performed by `beats_by_instrument` for
one event: a fresh instrument key is appended with a singleton tick list, an
existing instrument has the tick appended to its list.  The source keys the
dict by `str(single_instrument.note)`; as `str` is injective on integers the
note number itself serves as the key here. -/
def addInst : List (Nat × List Nat) → Nat → Nat → List (Nat × List Nat)
  | [], key, tick => [(key, [tick])]
  | (k, l) :: rest, key, tick =>
    if k = key then (k, l ++ [tick]) :: rest
    else (k, l) :: addInst rest key tick

/-- `MidiProcessor.beats_by_instrument`: walk `ordered_beats` in order and
append each tick to the timeline of every instrument attacking at it. -/
def beats_by_instrument (ordered : List (Nat × List NoteOn)) : List (Nat × List Nat) :=
  ordered.foldl (fun insts p => p.2.foldl (fun acc m => addInst acc m.note p.1) insts) []

/-- Accumulator of the statistics loop in `count_instruments_by_beat`. -/
structure StatsAcc where
  inst_sum : Nat
  binary_sum : Nat
  max_instruments_at_once : Nat
  min_instruments_at_once : Nat
deriving DecidableEq, Repr

/-- One iteration of the beat loop of `count_instruments_by_beat` (source
lines 83-92): update the running max and min with the beat's event count,
bump `binary_sum` when at least two instruments attack, add the count to
`inst_sum`. -/
def statsStep (a : StatsAcc) (p : Nat × List NoteOn) : StatsAcc :=
  let k := p.2.length
  let a1 := if a.max_instruments_at_once < k then { a with max_instruments_at_once := k } else a
  let a2 := if k < a1.min_instruments_at_once then { a1 with min_instruments_at_once := k } else a1
  let a3 := if 2 ≤ k then { a2 with binary_sum := a2.binary_sum + 1 } else a2
  { a3 with inst_sum := a3.inst_sum + k }

/-- The statistics fold: `inst_sum` and `binary_sum` start at 0,
`max_instruments_at_once` at 1 and `min_instruments_at_once` at the number of
distinct instruments (`len(self.instruments)`). -/
def statsFold (numInsts : Nat) (ordered : List (Nat × List NoteOn)) : StatsAcc :=
  ordered.foldl statsStep ⟨0, 0, 1, numInsts⟩

/-- The `ReturnData` records produced by `count_instruments_by_beat`; the
float `mean_value` becomes an exact rational. -/
structure ReturnData where
  mean_type : String
  num_insts : Nat
  mean_value : ℚ
deriving DecidableEq, Repr

/-- `MidiProcessor.count_instruments_by_beat`: run the statistics fold over
the ordered beats, then return the arithmetic mean `inst_sum / beatCount`
and the binary mean `min_instruments_at_once + binary_sum / beatCount`, each
tagged with the distinct instrument count. -/
def count_instruments_by_beat (instruments : List (Nat × List Nat))
    (ordered : List (Nat × List NoteOn)) : ReturnData × ReturnData :=
  let acc := statsFold instruments.length ordered
  let arith_mean : ℚ := (acc.inst_sum : ℚ) / (ordered.length : ℚ)
  let bin_mean : ℚ := (acc.min_instruments_at_once : ℚ) + (acc.binary_sum : ℚ) / (ordered.length : ℚ)
  (⟨"am", instruments.length, arith_mean⟩, ⟨"bm", instruments.length, bin_mean⟩)

/-- `MidiProcessor.get_tubs_placement`:
`int(math.ceil(float(attack_time) / (float(self.ticks_per_beat) / 12.0)))`,
embedded exactly as the ceiling of `12 * attack_time / ticks_per_beat`
computed in `Nat` (for positive `ticks_per_beat` this equals the real-number
ceiling; see `get_tubs_placement_eq_ceil`). -/
def get_tubs_placement (ticks_per_beat attack_time : Nat) : Nat :=
  (12 * attack_time + ticks_per_beat - 1) / ticks_per_beat

/-- The body of the tick loop of `create_timelines` (source lines 131-146),
acting on `(prev_tick, tubs)`: emit `tubs_tick - tubs_prev_tick - 1` dots
(the empty `range` when not positive), emit an `X` unless the slot repeats
for a positive tick, then set `prev_tick` to 1 after tick 0 and to the tick
itself otherwise. -/
def tubsStep (tpb : Nat) (p : Nat × String) (tick : Nat) : Nat × String :=
  let prev_tick := p.1
  let tubs := p.2
  let tubs_tick := get_tubs_placement tpb tick
  let tubs_prev_tick := get_tubs_placement tpb prev_tick
  let tubs := tubs ++ String.mk (List.replicate (tubs_tick - (tubs_prev_tick + 1)) '.')
  let tubs := if tubs_prev_tick = tubs_tick ∧ 0 < tick then tubs else tubs ++ "X"
  (if tick = 0 then tick + 1 else tick, tubs)

/-- The per-instrument body of `create_timelines`: fold the instrument's
ticks starting from `prev_tick = 0` and the empty string, pad to the end of
the track when the final slot is short of `get_tubs_placement(max_track_len)`,
and report the printed slot range `(quantize prev_tick, quantize max_track_len)`. -/
def renderTubs (tpb max_track_len : Nat) (beats_ticks : List Nat) : String × Nat × Nat :=
  let r := beats_ticks.foldl (tubsStep tpb) (0, "")
  let prev_tick := r.1
  let q_prev := get_tubs_placement tpb prev_tick
  let q_max := get_tubs_placement tpb max_track_len
  let tubs :=
    if q_prev < q_max then r.2 ++ String.mk (List.replicate (q_max - q_prev) '.') else r.2
  (tubs, q_prev, q_max)

/-- `MidiProcessor.create_timelines`: render one TUBS line per instrument of
`self.instruments`, in order. -/
def create_timelines (tpb max_track_len : Nat) (instruments : List (Nat × List Nat)) :
    List (Nat × (String × Nat × Nat)) :=
  instruments.map (fun p => (p.1, renderTubs tpb max_track_len p.2))

/-- `MidiProcessor.format_results_for_file_writing` (source lines 160-162). -/
def format_results_for_file_writing (filename : String)
    (max_track_len num_insts numerator denominator ticks_per_beat : Nat) : String :=
  filename ++ "\t\t" ++ toString max_track_len ++ "\t\t" ++
    toString num_insts ++ "\t\t" ++ toString numerator ++ "/" ++
    toString denominator ++ "\t\t" ++ toString ticks_per_beat ++ "\n"

/-- Outcome of one run of the `__main__` driver: either the informational
no-beats message, or the rendered timelines together with the report record. -/
inductive RunResult where
  | noBeats (msg : String)
  | processed (timelines : List (Nat × (String × Nat × Nat))) (report : String)
deriving DecidableEq, Repr

/-- The `__main__` driver (source lines 183-190): `process_tracks`, then
either the full pipeline (`setup_variables`, `beats_by_instrument`,
`create_timelines`, `format_results_for_file_writing`) when at least one beat
was found, or the `Found no beats` message. -/
def run_processor (filename : String) (ticks_per_beat : Nat)
    (tracks : List (List Message)) : RunResult :=
  let st := process_tracks tracks
  if 0 < st.beats.length then
    let ordered := sortBeats st.beats
    let instruments := beats_by_instrument ordered
    .processed (create_timelines ticks_per_beat st.max_track_len instruments)
      (format_results_for_file_writing filename st.max_track_len instruments.length
        st.numerator st.denominator ticks_per_beat)
  else
    .noBeats ("Found no beats on file " ++ filename ++ ".")

/-
Helper lemmas.
-/

/-- Ceiling of `a / b` over `ℚ` computed by the natural-number formula
`(a + b - 1) / b`, as `get_tubs_placement` does. -/
lemma nat_ceil_div (a b : Nat) (hb : 0 < b) :
    ⌈(a : ℚ) / (b : ℚ)⌉₊ = (a + b - 1) / b := by
  rcases Nat.eq_zero_or_pos a with ha | ha
  · subst ha
    simp [Nat.div_eq_of_lt (by omega : b - 1 < b)]
  · have hbq : (0 : ℚ) < (b : ℚ) := by exact_mod_cast hb
    have hdm := Nat.div_add_mod (a + b - 1) b
    have hrb : (a + b - 1) % b < b := Nat.mod_lt _ hb
    have hsub : ((a + b - 1) / b - 1) * b = b * ((a + b - 1) / b) - b := by
      rw [Nat.sub_mul, Nat.one_mul, Nat.mul_comm]
    have hcomm : (a + b - 1) / b * b = b * ((a + b - 1) / b) := Nat.mul_comm _ _
    have fact1 : ((a + b - 1) / b - 1) * b < a := by omega
    have fact2 : a ≤ (a + b - 1) / b * b := by omega
    have hn0 : (a + b - 1) / b ≠ 0 := by
      intro h
      rw [h, Nat.mul_zero] at hdm
      omega
    rw [Nat.ceil_eq_iff hn0]
    constructor
    · rw [lt_div_iff₀ hbq]
      exact_mod_cast fact1
    · rw [div_le_iff₀ hbq]
      exact_mod_cast fact2

/-- C5: `get_tubs_placement` is the exact ceiling `⌈tick / (ticksPerBeat / 12)⌉`:
it sends tick 0 to slot 0 and is monotone non-decreasing in the tick. -/
theorem get_tubs_placement_spec (tpb : Nat) (h : 0 < tpb) :
    get_tubs_placement tpb 0 = 0 ∧
    (∀ t : Nat, get_tubs_placement tpb t = ⌈(t : ℚ) / ((tpb : ℚ) / 12)⌉₊) ∧
    ∀ t1 t2 : Nat, t1 ≤ t2 → get_tubs_placement tpb t1 ≤ get_tubs_placement tpb t2 := by
  refine ⟨?_, ?_, ?_⟩
  · simp only [get_tubs_placement, Nat.mul_zero, Nat.zero_add]
    exact Nat.div_eq_of_lt (by omega)
  · intro t
    rw [div_div_eq_mul_div]
    have h12 : ((t : ℚ) * 12) = ((12 * t : Nat) : ℚ) := by push_cast; ring
    rw [h12, nat_ceil_div (12 * t) tpb h]
    rfl
  · intro t1 t2 h12
    exact Nat.div_le_div_right (by omega)

/-- Witness for C5 at `ticksPerBeat = 480`. -/
theorem get_tubs_placement_spec_witness :
    get_tubs_placement 480 0 = 0 ∧
    get_tubs_placement 480 500 = ⌈(500 : ℚ) / ((480 : ℚ) / 12)⌉₊ ∧
    get_tubs_placement 480 100 ≤ get_tubs_placement 480 200 := by
  have h := get_tubs_placement_spec 480 (by decide)
  exact ⟨h.1, h.2.1 500, h.2.2 100 200 (by decide)⟩

/-- C1 counterexample: on ticksPerBeat 480, attacks `[0, 480, 960]` and
maxTrackLength 1440, the encoder does not produce `("X" ++ "."×11) × 3` with
reported range 0-36. -/
theorem scenario_a_claim_false :
    create_timelines 480 1440 [(38, [0, 480, 960])] ≠
      [(38, ("X...........X...........X...........", 0, 36))] := by
  decide

/-- C1 amended: the encoder produces `"X" ++ "."×10 ++ "X" ++ "."×11 ++ "X"
++ "."×12` (length 36) and reports the range 24-36: after tick 0 the
previous tick becomes 1 (slot 1), so the first gap loses one dot, and the
reported range starts at the slot of the final previous tick. -/
theorem scenario_a_render :
    create_timelines 480 1440 [(38, [0, 480, 960])] =
      [(38, ("X..........X...........X............", 24, 36))] ∧
    (renderTubs 480 1440 [0, 480, 960]).1.length = 36 := by
  constructor <;> decide

/-- C7: when scanning yields no qualifying attack, the driver short-circuits
to the informational no-beats message; no timeline rendering, statistics or
report formatting occurs on that path. -/
theorem run_processor_no_beats (filename : String) (tpb : Nat)
    (tracks : List (List Message)) (h : (process_tracks tracks).beats = []) :
    run_processor filename tpb tracks =
      RunResult.noBeats ("Found no beats on file " ++ filename ++ ".") := by
  simp [run_processor, h]

/-- Witness for C7: a file whose only `note_on` is off the percussion
channel produces no beats and the message result. -/
theorem run_processor_no_beats_witness :
    run_processor "a.mid" 480 [[Message.setTempo 5 500000], [Message.noteOn 3 0 38 100]] =
      RunResult.noBeats ("Found no beats on file " ++ "a.mid" ++ ".") :=
  run_processor_no_beats "a.mid" 480 _ (by decide)

/-- C9: the report record is the five fields joined by double tabs and
terminated by one newline. -/
theorem format_results_spec (filename : String)
    (max_track_len num_insts numerator denominator ticks_per_beat : Nat) :
    format_results_for_file_writing filename max_track_len num_insts numerator
        denominator ticks_per_beat =
      String.intercalate "\t\t"
        [filename, toString max_track_len, toString num_insts,
          toString numerator ++ "/" ++ toString denominator,
          toString ticks_per_beat] ++ "\n" := by
  simp [format_results_for_file_writing, String.intercalate, String.intercalate.go,
    String.append_assoc]

/-- Projection of one statistics step: `inst_sum` grows by the beat's event
count. -/
lemma statsStep_inst_sum (a : StatsAcc) (p : Nat × List NoteOn) :
    (statsStep a p).inst_sum = a.inst_sum + p.2.length := by
  simp only [statsStep]
  split <;> split <;> split <;> rfl

/-- Projection of one statistics step: `binary_sum` counts beats with at
least two events. -/
lemma statsStep_binary_sum (a : StatsAcc) (p : Nat × List NoteOn) :
    (statsStep a p).binary_sum = a.binary_sum + if 2 ≤ p.2.length then 1 else 0 := by
  simp only [statsStep]
  split <;> split <;> split <;> simp_all

/-- Projection of one statistics step: the running minimum. -/
lemma statsStep_min (a : StatsAcc) (p : Nat × List NoteOn) :
    (statsStep a p).min_instruments_at_once = min a.min_instruments_at_once p.2.length := by
  simp only [statsStep]
  split <;> split <;> split <;> simp_all <;> omega

/-- Projection of one statistics step: the running maximum. -/
lemma statsStep_max (a : StatsAcc) (p : Nat × List NoteOn) :
    (statsStep a p).max_instruments_at_once = max a.max_instruments_at_once p.2.length := by
  simp only [statsStep]
  split <;> split <;> split <;> simp_all <;> omega

/-- Closed forms of the statistics fold, relative to any starting
accumulator. -/
lemma statsFold_closed (ordered : List (Nat × List NoteOn)) : ∀ a : StatsAcc,
    (ordered.foldl statsStep a).inst_sum =
        a.inst_sum + (ordered.map fun p => p.2.length).sum ∧
    (ordered.foldl statsStep a).binary_sum =
        a.binary_sum + ordered.countP (fun p => 2 ≤ p.2.length) ∧
    (ordered.foldl statsStep a).min_instruments_at_once =
        ordered.foldl (fun m p => min m p.2.length) a.min_instruments_at_once ∧
    (ordered.foldl statsStep a).max_instruments_at_once =
        ordered.foldl (fun m p => max m p.2.length) a.max_instruments_at_once := by
  induction ordered with
  | nil => intro a; simp
  | cons p rest ih =>
    intro a
    obtain ⟨ih1, ih2, ih3, ih4⟩ := ih (statsStep a p)
    refine ⟨?_, ?_, ?_, ?_⟩
    · rw [List.foldl_cons, ih1, statsStep_inst_sum, List.map_cons, List.sum_cons]
      omega
    · rw [List.foldl_cons, ih2, statsStep_binary_sum, List.countP_cons]
      simp only [decide_eq_true_eq]
      omega
    · rw [List.foldl_cons, ih3, statsStep_min, List.foldl_cons]
    · rw [List.foldl_cons, ih4, statsStep_max, List.foldl_cons]

/-- C2: on non-empty ordered beats, the returned arithmetic mean is the sum
of the per-beat instrument counts divided by the beat count, and the
returned binary mean is the running minimum (seeded at the distinct
instrument count) plus the number of beats with at least two instruments
divided by the beat count; the running maximum is seeded at 1; both records
carry the distinct instrument count. -/
theorem count_instruments_by_beat_spec (instruments : List (Nat × List Nat))
    (ordered : List (Nat × List NoteOn)) (h : ordered ≠ []) :
    (count_instruments_by_beat instruments ordered).1.mean_value =
        ((((ordered.map fun p => p.2.length).sum : ℕ) : ℚ) / (ordered.length : ℚ)) ∧
    (count_instruments_by_beat instruments ordered).2.mean_value =
        (((ordered.foldl (fun m p => min m p.2.length) instruments.length : ℕ) : ℚ) +
          (ordered.countP (fun p => 2 ≤ p.2.length) : ℚ) / (ordered.length : ℚ)) ∧
    (statsFold instruments.length ordered).max_instruments_at_once =
        ordered.foldl (fun m p => max m p.2.length) 1 ∧
    (count_instruments_by_beat instruments ordered).1.num_insts = instruments.length ∧
    (count_instruments_by_beat instruments ordered).2.num_insts = instruments.length := by
  obtain ⟨h1, h2, h3, h4⟩ := statsFold_closed ordered ⟨0, 0, 1, instruments.length⟩
  refine ⟨?_, ?_, ?_, rfl, rfl⟩
  · show ((statsFold instruments.length ordered).inst_sum : ℚ) / (ordered.length : ℚ) = _
    rw [statsFold, h1]
    norm_num
  · show ((statsFold instruments.length ordered).min_instruments_at_once : ℚ) +
      ((statsFold instruments.length ordered).binary_sum : ℚ) / (ordered.length : ℚ) = _
    rw [statsFold, h2, h3]
    norm_num
  · exact h4

/-- Witness for C2 at Scenario C: beats `{0: [A], 500: [A, B]}` with two
distinct instruments give arithmetic mean 3/2 and binary mean 3/2. -/
theorem count_instruments_by_beat_spec_witness :
    (count_instruments_by_beat [(38, [0, 500]), (42, [500])]
        [(0, [⟨9, 38, 100⟩]), (500, [⟨9, 38, 100⟩, ⟨9, 42, 100⟩])]).1.mean_value = 3 / 2 ∧
    (count_instruments_by_beat [(38, [0, 500]), (42, [500])]
        [(0, [⟨9, 38, 100⟩]), (500, [⟨9, 38, 100⟩, ⟨9, 42, 100⟩])]).2.mean_value = 3 / 2 := by
  have h := count_instruments_by_beat_spec [(38, [0, 500]), (42, [500])]
    [(0, [⟨9, 38, 100⟩]), (500, [⟨9, 38, 100⟩, ⟨9, 42, 100⟩])] (by decide)
  refine ⟨?_, ?_⟩
  · rw [h.1]; norm_num
  · rw [h.2.1]; norm_num

/-- C8: on non-empty ordered beats the binary mean is at least the final
running minimum, since the added term is a quotient of non-negatives. -/
theorem binary_mean_ge_min (instruments : List (Nat × List Nat))
    (ordered : List (Nat × List NoteOn)) (h : ordered ≠ []) :
    ((statsFold instruments.length ordered).min_instruments_at_once : ℚ) ≤
      (count_instruments_by_beat instruments ordered).2.mean_value := by
  have h0 : (0 : ℚ) ≤
      ((statsFold instruments.length ordered).binary_sum : ℚ) / (ordered.length : ℚ) :=
    div_nonneg (Nat.cast_nonneg _) (Nat.cast_nonneg _)
  show _ ≤ ((statsFold instruments.length ordered).min_instruments_at_once : ℚ) +
      ((statsFold instruments.length ordered).binary_sum : ℚ) / (ordered.length : ℚ)
  linarith

/-- Witness for C8 at Scenario C. -/
theorem binary_mean_ge_min_witness :
    ((statsFold 2 [(0, [⟨9, 38, 100⟩]), (500, [⟨9, 38, 100⟩, ⟨9, 42, 100⟩])]).min_instruments_at_once : ℚ) ≤
      (count_instruments_by_beat [(38, [0, 500]), (42, [500])]
        [(0, [⟨9, 38, 100⟩]), (500, [⟨9, 38, 100⟩, ⟨9, 42, 100⟩])]).2.mean_value :=
  binary_mean_ge_min [(38, [0, 500]), (42, [500])]
    [(0, [⟨9, 38, 100⟩]), (500, [⟨9, 38, 100⟩, ⟨9, 42, 100⟩])] (by decide)

/-- A message that is not a `time_signature` leaves the numerator and
denominator unchanged. -/
lemma processMessage_time_signature_fields (p : ProcState × Nat) (m : Message)
    (h : m.isTimeSignature = false) :
    (processMessage p m).1.numerator = p.1.numerator ∧
    (processMessage p m).1.denominator = p.1.denominator := by
  cases m with
  | noteOn t c n v =>
    simp only [processMessage]
    split <;> exact ⟨rfl, rfl⟩
  | setTempo t tp => exact ⟨rfl, rfl⟩
  | timeSignature t n d => simp [Message.isTimeSignature] at h
  | other t => exact ⟨rfl, rfl⟩

/-- A message that is not a `set_tempo` leaves the tempo unchanged. -/
lemma processMessage_tempo (p : ProcState × Nat) (m : Message)
    (h : m.isSetTempo = false) :
    (processMessage p m).1.tempo = p.1.tempo := by
  cases m with
  | noteOn t c n v =>
    simp only [processMessage]
    split <;> rfl
  | setTempo t tp => simp [Message.isSetTempo] at h
  | timeSignature t n d => rfl
  | other t => rfl

/-- No message touches `max_track_len`; only the per-track epilogue does. -/
lemma processMessage_max_track_len (p : ProcState × Nat) (m : Message) :
    (processMessage p m).1.max_track_len = p.1.max_track_len := by
  cases m with
  | noteOn t c n v =>
    simp only [processMessage]
    split <;> rfl
  | setTempo t tp => rfl
  | timeSignature t n d => rfl
  | other t => rfl

/-- Every message advances the running counter by its delta time. -/
lemma processMessage_counter (p : ProcState × Nat) (m : Message) :
    (processMessage p m).2 = p.2 + m.time := by
  cases m with
  | noteOn t c n v =>
    simp only [processMessage]
    split <;> rfl
  | setTempo t tp => rfl
  | timeSignature t n d => rfl
  | other t => rfl

/-- The message fold of a track adds exactly the sum of the delta times to
the counter. -/
lemma foldl_processMessage_counter (track : List Message) : ∀ p : ProcState × Nat,
    (track.foldl processMessage p).2 = p.2 + (track.map Message.time).sum := by
  induction track with
  | nil => intro p; simp
  | cons m rest ih =>
    intro p
    rw [List.foldl_cons, ih (processMessage p m), processMessage_counter]
    simp [Nat.add_assoc]

/-- The message fold preserves numerator and denominator when the track has
no `time_signature` message. -/
lemma foldl_processMessage_time_signature (track : List Message)
    (h : ∀ m ∈ track, m.isTimeSignature = false) : ∀ p : ProcState × Nat,
    (track.foldl processMessage p).1.numerator = p.1.numerator ∧
    (track.foldl processMessage p).1.denominator = p.1.denominator := by
  induction track with
  | nil => intro p; exact ⟨rfl, rfl⟩
  | cons m rest ih =>
    intro p
    have hm := processMessage_time_signature_fields p m (h m (by simp))
    have hr := ih (fun m hm => h m (by simp [hm])) (processMessage p m)
    rw [List.foldl_cons]
    exact ⟨hr.1.trans hm.1, hr.2.trans hm.2⟩

/-- The message fold preserves the tempo when the track has no `set_tempo`
message. -/
lemma foldl_processMessage_tempo (track : List Message)
    (h : ∀ m ∈ track, m.isSetTempo = false) : ∀ p : ProcState × Nat,
    (track.foldl processMessage p).1.tempo = p.1.tempo := by
  induction track with
  | nil => intro p; rfl
  | cons m rest ih =>
    intro p
    have hm := processMessage_tempo p m (h m (by simp))
    have hr := ih (fun m hm => h m (by simp [hm])) (processMessage p m)
    rw [List.foldl_cons]
    exact hr.trans hm

/-- The per-track epilogue only changes `max_track_len`. -/
lemma processTrack_other_fields (s : ProcState) (track : List Message) :
    (processTrack s track).beats = (track.foldl processMessage (s, 0)).1.beats ∧
    (processTrack s track).numerator = (track.foldl processMessage (s, 0)).1.numerator ∧
    (processTrack s track).denominator = (track.foldl processMessage (s, 0)).1.denominator ∧
    (processTrack s track).tempo = (track.foldl processMessage (s, 0)).1.tempo := by
  simp only [processTrack]
  split <;> exact ⟨rfl, rfl, rfl, rfl⟩

/-- C10: with no `time_signature` event anywhere the reported time signature
stays at the initial 4/4, and with no `set_tempo` event anywhere the tempo
stays at the initial 0. -/
theorem process_tracks_defaults (tracks : List (List Message)) :
    ((∀ tr ∈ tracks, ∀ m ∈ tr, m.isTimeSignature = false) →
      (process_tracks tracks).numerator = 4 ∧ (process_tracks tracks).denominator = 4) ∧
    ((∀ tr ∈ tracks, ∀ m ∈ tr, m.isSetTempo = false) →
      (process_tracks tracks).tempo = 0) := by
  have main : ∀ (ts : List (List Message)) (s : ProcState),
      ((∀ tr ∈ ts, ∀ m ∈ tr, m.isTimeSignature = false) →
        (ts.foldl processTrack s).numerator = s.numerator ∧
        (ts.foldl processTrack s).denominator = s.denominator) ∧
      ((∀ tr ∈ ts, ∀ m ∈ tr, m.isSetTempo = false) →
        (ts.foldl processTrack s).tempo = s.tempo) := by
    intro ts
    induction ts with
    | nil => intro s; exact ⟨fun _ => ⟨rfl, rfl⟩, fun _ => rfl⟩
    | cons tr rest ih =>
      intro s
      constructor
      · intro h
        have hrest := (ih (processTrack s tr)).1
          (fun tr htr => h tr (by simp [htr]))
        have hfold := foldl_processMessage_time_signature tr (h tr (by simp)) (s, 0)
        have hep := processTrack_other_fields s tr
        rw [List.foldl_cons]
        exact ⟨hrest.1.trans (hep.2.1.trans hfold.1), hrest.2.trans (hep.2.2.1.trans hfold.2)⟩
      · intro h
        have hrest := (ih (processTrack s tr)).2
          (fun tr htr => h tr (by simp [htr]))
        have hfold := foldl_processMessage_tempo tr (h tr (by simp)) (s, 0)
        have hep := processTrack_other_fields s tr
        rw [List.foldl_cons]
        exact hrest.trans (hep.2.2.2.trans hfold)
  exact ⟨fun h => (main tracks initState).1 h, fun h => (main tracks initState).2 h⟩

/-- Witness for C10: a file with only note and end-of-track events keeps the
4/4 default time signature and tempo 0. -/
theorem process_tracks_defaults_witness :
    (process_tracks [[Message.noteOn 0 9 38 100, Message.other 17]]).numerator = 4 ∧
    (process_tracks [[Message.noteOn 0 9 38 100, Message.other 17]]).denominator = 4 ∧
    (process_tracks [[Message.noteOn 0 9 38 100, Message.other 17]]).tempo = 0 := by
  have h := process_tracks_defaults [[Message.noteOn 0 9 38 100, Message.other 17]]
  have h1 := h.1 (by decide)
  have h2 := h.2 (by decide)
  exact ⟨h1.1, h1.2, h2⟩

/-- The message fold never changes `max_track_len`. -/
lemma foldl_processMessage_max_track_len (track : List Message) : ∀ p : ProcState × Nat,
    (track.foldl processMessage p).1.max_track_len = p.1.max_track_len := by
  induction track with
  | nil => intro p; rfl
  | cons m rest ih =>
    intro p
    rw [List.foldl_cons, ih (processMessage p m), processMessage_max_track_len]

/-- The per-track epilogue sets `max_track_len` to the maximum of its old
value and the track's total delta time. -/
lemma processTrack_max_track_len (s : ProcState) (track : List Message) :
    (processTrack s track).max_track_len =
      max s.max_track_len (track.map Message.time).sum := by
  have hc : (track.foldl processMessage (s, 0)).2 = 0 + (track.map Message.time).sum :=
    foldl_processMessage_counter track (s, 0)
  have hm : (track.foldl processMessage (s, 0)).1.max_track_len = s.max_track_len :=
    foldl_processMessage_max_track_len track (s, 0)
  simp only [processTrack]
  split
  next h =>
    rw [hm, hc] at h
    show (track.foldl processMessage (s, 0)).2 = _
    rw [hc]
    omega
  next h =>
    rw [hm, hc] at h
    rw [hm]
    omega

/-- C6: after `process_tracks`, `max_track_len` is the running maximum,
seeded at 0, of every track's total delta time; in particular every track's
total is accounted for, not only the last one. -/
theorem process_tracks_max_track_len (tracks : List (List Message)) :
    (process_tracks tracks).max_track_len =
      (tracks.map fun tr => (tr.map Message.time).sum).foldl max 0 ∧
    ∀ tr ∈ tracks, (tr.map Message.time).sum ≤ (process_tracks tracks).max_track_len := by
  have main : ∀ (ts : List (List Message)) (s : ProcState),
      (ts.foldl processTrack s).max_track_len =
        (ts.map fun tr => (tr.map Message.time).sum).foldl max s.max_track_len := by
    intro ts
    induction ts with
    | nil => intro s; rfl
    | cons tr rest ih =>
      intro s
      rw [List.foldl_cons, List.map_cons, List.foldl_cons, ih (processTrack s tr),
        processTrack_max_track_len]
  have hle : ∀ (l : List Nat) (a : Nat), a ≤ l.foldl max a := by
    intro l
    induction l with
    | nil => intro a; exact Nat.le_refl a
    | cons x rest ih =>
      intro a
      exact Nat.le_trans (Nat.le_max_left a x) (ih (max a x))
  have hmem : ∀ (l : List Nat) (a x : Nat), x ∈ l → x ≤ l.foldl max a := by
    intro l
    induction l with
    | nil => intro a x hx; simp at hx
    | cons y rest ih =>
      intro a x hx
      rcases List.mem_cons.1 hx with h | h
      · subst h
        exact Nat.le_trans (Nat.le_max_right a x) (hle rest (max a x))
      · exact ih (max a y) x h
  refine ⟨main tracks initState, ?_⟩
  intro tr htr
  show (tr.map Message.time).sum ≤ (tracks.foldl processTrack initState).max_track_len
  rw [main tracks initState]
  exact hmem _ _ _ (List.mem_map_of_mem _ htr)

/-- Witness for C6 on a two-track file: the second track's total is covered
by the computed maximum. -/
theorem process_tracks_max_track_len_witness :
    (process_tracks [[Message.noteOn 0 9 38 100, Message.other 17],
        [Message.other 5]]).max_track_len =
      ([[Message.noteOn 0 9 38 100, Message.other 17], [Message.other 5]].map
        fun tr => (tr.map Message.time).sum).foldl max 0 ∧
    ([Message.other 5].map Message.time).sum ≤
      (process_tracks [[Message.noteOn 0 9 38 100, Message.other 17],
        [Message.other 5]]).max_track_len := by
  have h := process_tracks_max_track_len
    [[Message.noteOn 0 9 38 100, Message.other 17], [Message.other 5]]
  exact ⟨h.1, h.2 [Message.other 5] (by decide)⟩

/-- The per-tick payload invariant maintained by the scanner: every retained
event is a positive-velocity attack on channel 9, and no two events at one
tick share a note. -/
def TickInv (p : Nat × List NoteOn) : Prop :=
  (∀ e ∈ p.2, 0 < e.velocity ∧ e.channel = 9) ∧
    (p.2.Pairwise fun a b => a.note ≠ b.note)

/-- `addBeat` preserves the per-tick invariant when the inserted event
qualifies. -/
lemma addBeat_tickInv (bs : List (Nat × List NoteOn)) (t : Nat) (m : NoteOn)
    (hm : 0 < m.velocity ∧ m.channel = 9) (h : ∀ p ∈ bs, TickInv p) :
    ∀ p ∈ addBeat bs t m, TickInv p := by
  induction bs with
  | nil =>
    intro p hp
    simp only [addBeat, List.mem_singleton] at hp
    subst hp
    refine ⟨?_, List.pairwise_singleton _ _⟩
    intro e he
    simp only [List.mem_singleton] at he
    subst he
    exact hm
  | cons q rest ih =>
    obtain ⟨t', l⟩ := q
    intro p hp
    simp only [addBeat] at hp
    by_cases h1 : t' = t
    · rw [if_pos h1] at hp
      by_cases h2 : l.any (fun b => b.note = m.note) = true
      · rw [if_pos h2] at hp
        exact h p hp
      · rw [if_neg h2] at hp
        rcases List.mem_cons.1 hp with hph | hpt
        · subst hph
          have hl := h (t', l) (List.mem_cons_self _ _)
          have hnotin : ∀ b ∈ l, b.note ≠ m.note := by
            have h3 := List.any_eq_false.mp (Bool.eq_false_iff.mpr h2)
            intro b hb
            have := h3 b hb
            simpa using this
          constructor
          · intro e he
            rcases List.mem_append.1 he with he | he
            · exact hl.1 e he
            · simp only [List.mem_singleton] at he
              subst he
              exact hm
          · rw [List.pairwise_append]
            refine ⟨hl.2, List.pairwise_singleton _ _, ?_⟩
            intro a ha b hb
            simp only [List.mem_singleton] at hb
            subst hb
            exact hnotin a ha
        · exact h p (List.mem_cons_of_mem _ hpt)
    · rw [if_neg h1] at hp
      rcases List.mem_cons.1 hp with hph | hpt
      · subst hph
        exact h _ (List.mem_cons_self _ _)
      · exact ih (fun p hp => h p (List.mem_cons_of_mem _ hp)) p hpt

/-- The keys of `addBeat` are the old keys, extended by the new tick exactly
when it was absent. -/
lemma addBeat_keys (bs : List (Nat × List NoteOn)) (t : Nat) (m : NoteOn) :
    (addBeat bs t m).map Prod.fst =
      if t ∈ bs.map Prod.fst then bs.map Prod.fst else bs.map Prod.fst ++ [t] := by
  induction bs with
  | nil => simp [addBeat]
  | cons q rest ih =>
    obtain ⟨t', l⟩ := q
    by_cases h1 : t' = t
    · subst h1
      simp only [addBeat, if_pos rfl]
      by_cases h2 : l.any (fun b => b.note = m.note) = true
      · simp [h2]
      · simp [h2]
    · by_cases h2 : t ∈ rest.map Prod.fst
      · simp [addBeat, h1, ih, h2, Ne.symm h1]
      · simp [addBeat, h1, ih, h2, Ne.symm h1]

/-- `addBeat` keeps the tick keys unique. -/
lemma addBeat_keys_nodup (bs : List (Nat × List NoteOn)) (t : Nat) (m : NoteOn)
    (h : (bs.map Prod.fst).Nodup) : ((addBeat bs t m).map Prod.fst).Nodup := by
  rw [addBeat_keys]
  split
  · exact h
  next h2 =>
    rw [List.nodup_append]
    exact ⟨h, List.nodup_singleton _, by
      intro a ha hb
      simp only [List.mem_singleton] at hb
      subst hb
      exact h2 ha⟩

/-- One message preserves the per-tick invariant of the beats map. -/
lemma processMessage_tickInv (p : ProcState × Nat) (m : Message)
    (h : ∀ q ∈ p.1.beats, TickInv q) :
    ∀ q ∈ (processMessage p m).1.beats, TickInv q := by
  cases m with
  | noteOn t c n v =>
    simp only [processMessage]
    split
    next hc => exact addBeat_tickInv _ _ _ ⟨hc.1, hc.2⟩ h
    next => exact h
  | setTempo t tp => exact h
  | timeSignature t n d => exact h
  | other t => exact h

/-- One message keeps the tick keys unique. -/
lemma processMessage_keys_nodup (p : ProcState × Nat) (m : Message)
    (h : (p.1.beats.map Prod.fst).Nodup) :
    ((processMessage p m).1.beats.map Prod.fst).Nodup := by
  cases m with
  | noteOn t c n v =>
    simp only [processMessage]
    split
    next => exact addBeat_keys_nodup _ _ _ h
    next => exact h
  | setTempo t tp => exact h
  | timeSignature t n d => exact h
  | other t => exact h

/-- The message fold preserves both beat-map invariants. -/
lemma foldl_processMessage_beats_inv (track : List Message) : ∀ p : ProcState × Nat,
    (∀ q ∈ p.1.beats, TickInv q) → ((p.1.beats.map Prod.fst).Nodup) →
    (∀ q ∈ (track.foldl processMessage p).1.beats, TickInv q) ∧
      ((track.foldl processMessage p).1.beats.map Prod.fst).Nodup := by
  induction track with
  | nil => intro p h1 h2; exact ⟨h1, h2⟩
  | cons m rest ih =>
    intro p h1 h2
    exact ih (processMessage p m) (processMessage_tickInv p m h1)
      (processMessage_keys_nodup p m h2)

/-- The whole scan preserves both beat-map invariants. -/
lemma process_tracks_beats_aux (tracks : List (List Message)) : ∀ s : ProcState,
    (∀ q ∈ s.beats, TickInv q) → ((s.beats.map Prod.fst).Nodup) →
    (∀ q ∈ (tracks.foldl processTrack s).beats, TickInv q) ∧
      ((tracks.foldl processTrack s).beats.map Prod.fst).Nodup := by
  induction tracks with
  | nil => intro s h1 h2; exact ⟨h1, h2⟩
  | cons tr rest ih =>
    intro s h1 h2
    have hfold := foldl_processMessage_beats_inv tr (s, 0) h1 h2
    have hb := (processTrack_other_fields s tr).1
    refine ih (processTrack s tr) ?_ ?_
    · rw [hb]; exact hfold.1
    · rw [hb]; exact hfold.2

/-- C3: after `process_tracks`, every stored event has positive velocity and
channel 9, and no tick's list holds two events with the same note. -/
theorem process_tracks_beats_inv (tracks : List (List Message)) :
    ∀ p ∈ (process_tracks tracks).beats,
      (∀ e ∈ p.2, 0 < e.velocity ∧ e.channel = 9) ∧
        (p.2.Pairwise fun a b => a.note ≠ b.note) :=
  (process_tracks_beats_aux tracks initState (by simp [initState]) (by simp [initState])).1

/-- Witness for C3: a track with a duplicate note and an off-channel attack
retains exactly the two qualifying distinct-note events at tick 0. -/
theorem process_tracks_beats_inv_witness :
    (∀ e ∈ [({ channel := 9, note := 38, velocity := 100 } : NoteOn),
        { channel := 9, note := 42, velocity := 90 }], 0 < e.velocity ∧ e.channel = 9) ∧
      (List.Pairwise (fun a b => a.note ≠ b.note)
        [({ channel := 9, note := 38, velocity := 100 } : NoteOn),
          { channel := 9, note := 42, velocity := 90 }]) :=
  process_tracks_beats_inv
    [[Message.noteOn 0 9 38 100, Message.noteOn 0 9 38 100, Message.noteOn 0 0 40 100,
      Message.noteOn 0 9 42 90]]
    (0, [{ channel := 9, note := 38, velocity := 100 },
      { channel := 9, note := 42, velocity := 90 }]) (by decide)

instance : IsTotal (Nat × List NoteOn) (fun a b => a.1 ≤ b.1) :=
  ⟨fun a b => Nat.le_total a.1 b.1⟩

instance : IsTrans (Nat × List NoteOn) (fun a b => a.1 ≤ b.1) :=
  ⟨fun _ _ _ h1 h2 => Nat.le_trans h1 h2⟩

/-- Sorting the beats is a permutation of the beats. -/
lemma sortBeats_perm (bs : List (Nat × List NoteOn)) : (sortBeats bs).Perm bs :=
  List.perm_insertionSort _ bs

/-- With unique tick keys, the sorted beats have strictly increasing keys. -/
lemma sortBeats_keys_lt (bs : List (Nat × List NoteOn)) (h : (bs.map Prod.fst).Nodup) :
    ((sortBeats bs).map Prod.fst).Pairwise (· < ·) := by
  have hs : List.Sorted (fun a b => a.1 ≤ b.1) (sortBeats bs) :=
    List.sorted_insertionSort _ bs
  have hnd : ((sortBeats bs).map Prod.fst).Nodup :=
    (((sortBeats_perm bs).map Prod.fst).nodup_iff).mpr h
  have hne : (sortBeats bs).Pairwise (fun a b => a.1 ≠ b.1) := List.pairwise_map.mp hnd
  rw [List.pairwise_map]
  exact List.Pairwise.imp₂ (fun a b h1 h2 => lt_of_le_of_ne h1 h2) hs hne

/-- The timeline stored for an instrument key in the instruments map
(`[]` when the key is absent). -/
def getTimeline (insts : List (Nat × List Nat)) (key : Nat) : List Nat :=
  ((insts.find? fun q => q.1 = key).map Prod.snd).getD []

/-- Effect of one `addInst` on a stored timeline: the tick is appended to
the inserted key's timeline and nothing else changes. -/
lemma addInst_getTimeline (insts : List (Nat × List Nat)) (key tick k : Nat) :
    getTimeline (addInst insts key tick) k =
      getTimeline insts k ++ if k = key then [tick] else [] := by
  induction insts with
  | nil =>
    by_cases h : k = key
    · subst h
      simp [addInst, getTimeline]
    · simp [addInst, getTimeline, h, Ne.symm h]
  | cons q rest ih =>
    obtain ⟨k', l⟩ := q
    have hhead : ∀ (lh : List Nat) (kq : Nat) (tl : List (Nat × List Nat)), k' ≠ kq →
        getTimeline ((k', lh) :: tl) kq = getTimeline tl kq := by
      intro lh kq tl hne
      simp only [getTimeline, List.find?_cons]
      rw [show (decide (k' = kq)) = false by simp [hne]]
    by_cases h1 : k' = key
    · subst h1
      by_cases h2 : k' = k
      · subst h2
        simp [addInst, getTimeline]
      · rw [show addInst ((k', l) :: rest) k' tick = (k', l ++ [tick]) :: rest from by
          simp [addInst]]
        rw [hhead (l ++ [tick]) k rest h2, hhead l k rest h2, if_neg (Ne.symm h2)]
        simp
    · rw [show addInst ((k', l) :: rest) key tick = (k', l) :: addInst rest key tick from by
        simp [addInst, h1]]
      by_cases h2 : k' = k
      · subst h2
        rw [if_neg (show ¬k' = key from h1)]
        simp [getTimeline]
      · rw [hhead l k (addInst rest key tick) h2, hhead l k rest h2, ih]

/-- The keys of `addInst` are the old keys, extended by the inserted key
exactly when it was absent. -/
lemma addInst_keys (insts : List (Nat × List Nat)) (key tick : Nat) :
    (addInst insts key tick).map Prod.fst =
      if key ∈ insts.map Prod.fst then insts.map Prod.fst
      else insts.map Prod.fst ++ [key] := by
  induction insts with
  | nil => simp [addInst]
  | cons q rest ih =>
    obtain ⟨k', l⟩ := q
    by_cases h1 : k' = key
    · subst h1
      simp [addInst]
    · by_cases h2 : key ∈ rest.map Prod.fst
      · simp [addInst, h1, ih, h2, Ne.symm h1]
      · simp [addInst, h1, ih, h2, Ne.symm h1]

/-- `addInst` keeps the instrument keys unique. -/
lemma addInst_keys_nodup (insts : List (Nat × List Nat)) (key tick : Nat)
    (h : (insts.map Prod.fst).Nodup) : ((addInst insts key tick).map Prod.fst).Nodup := by
  rw [addInst_keys]
  split
  · exact h
  next h2 =>
    rw [List.nodup_append]
    refine ⟨h, List.nodup_singleton _, ?_⟩
    intro a ha hb
    simp only [List.mem_singleton] at hb
    subst hb
    exact h2 ha

/-- With unique keys, a member of the instruments map stores exactly its
timeline. -/
lemma getTimeline_of_mem (insts : List (Nat × List Nat))
    (h : (insts.map Prod.fst).Nodup) : ∀ pr ∈ insts, getTimeline insts pr.1 = pr.2 := by
  induction insts with
  | nil =>
    intro pr hpr
    simp at hpr
  | cons q rest ih =>
    intro pr hpr
    obtain ⟨k', l⟩ := q
    rw [List.map_cons, List.nodup_cons] at h
    rcases List.mem_cons.1 hpr with h1 | h1
    · subst h1
      simp [getTimeline]
    · have hk : k' ≠ pr.1 := by
        intro he
        have hmem : pr.1 ∈ rest.map Prod.fst := List.mem_map_of_mem Prod.fst h1
        rw [← he] at hmem
        exact h.1 hmem
      simp only [getTimeline, List.find?_cons]
      rw [show (decide (k' = pr.1)) = false by simp [hk]]
      exact ih h.2 pr h1

/-- Folding the events of one beat into the instruments map appends the tick
once per event of the queried instrument. -/
lemma foldl_addInst_getTimeline (evs : List NoteOn) (t k : Nat) :
    ∀ acc : List (Nat × List Nat),
    getTimeline (evs.foldl (fun a m => addInst a m.note t) acc) k =
      getTimeline acc k ++ (evs.filter fun m => m.note = k).map (fun _ => t) := by
  induction evs with
  | nil => intro acc; simp
  | cons m rest ih =>
    intro acc
    rw [List.foldl_cons, ih (addInst acc m.note t), addInst_getTimeline]
    by_cases h : m.note = k
    · rw [if_pos h.symm, List.filter_cons, if_pos (by simpa using h)]
      simp [List.append_assoc]
    · rw [if_neg (Ne.symm h), List.filter_cons, if_neg (by simpa using h)]
      simp

/-- Per-instrument tick contributions of the ordered beats, in beat order
(proof infrastructure for `beats_by_instrument`). -/
def contrib (k : Nat) : List (Nat × List NoteOn) → List Nat
  | [] => []
  | p :: rest => ((p.2.filter fun m => m.note = k).map fun _ => p.1) ++ contrib k rest

/-- The timeline an instrument ends with is its contribution list. -/
lemma beats_by_instrument_fold (ordered : List (Nat × List NoteOn)) (k : Nat) :
    ∀ acc : List (Nat × List Nat),
    getTimeline
        (ordered.foldl (fun insts p => p.2.foldl (fun a m => addInst a m.note p.1) insts) acc)
        k =
      getTimeline acc k ++ contrib k ordered := by
  induction ordered with
  | nil => intro acc; simp [contrib]
  | cons p rest ih =>
    intro acc
    simp only [List.foldl_cons]
    rw [ih, foldl_addInst_getTimeline]
    simp [contrib]

/-- The instruments map built by `beats_by_instrument` has unique keys. -/
lemma beats_by_instrument_keys_nodup (ordered : List (Nat × List NoteOn)) :
    ((beats_by_instrument ordered).map Prod.fst).Nodup := by
  have inner : ∀ (evs : List NoteOn) (t : Nat) (acc : List (Nat × List Nat)),
      (acc.map Prod.fst).Nodup →
      ((evs.foldl (fun a m => addInst a m.note t) acc).map Prod.fst).Nodup := by
    intro evs t
    induction evs with
    | nil => intro acc h; exact h
    | cons m rest ih =>
      intro acc h
      exact ih _ (addInst_keys_nodup _ _ _ h)
  have outer : ∀ (os : List (Nat × List NoteOn)) (acc : List (Nat × List Nat)),
      (acc.map Prod.fst).Nodup →
      ((os.foldl (fun insts p => p.2.foldl (fun a m => addInst a m.note p.1) insts) acc).map
        Prod.fst).Nodup := by
    intro os
    induction os with
    | nil => intro acc h; exact h
    | cons p rest ih =>
      intro acc h
      simp only [List.foldl_cons]
      exact ih _ (inner p.2 p.1 acc h)
  exact outer ordered [] (by simp)

/-- Under the per-tick dedup invariant, an instrument contributes each beat
tick at most once, so its contribution list is a sublist of the tick keys. -/
lemma contrib_sublist (k : Nat) (ordered : List (Nat × List NoteOn))
    (h : ∀ p ∈ ordered, p.2.Pairwise fun a b => a.note ≠ b.note) :
    (contrib k ordered).Sublist (ordered.map Prod.fst) := by
  induction ordered with
  | nil => simp [contrib]
  | cons p rest ih =>
    have hp := h p (List.mem_cons_self _ _)
    have hfil : ((p.2.filter fun m => m.note = k).map fun _ => p.1).Sublist [p.1] := by
      cases hf : p.2.filter (fun m => m.note = k) with
      | nil => simp
      | cons a tl =>
        cases tl with
        | nil => simp
        | cons b l2 =>
          exfalso
          have hpw := List.Pairwise.sublist
            (@List.filter_sublist NoteOn (fun m => decide (m.note = k)) p.2) hp
          rw [hf] at hpw
          have ha := List.of_mem_filter (hf.symm ▸ List.mem_cons_self a (b :: l2))
          have hb := List.of_mem_filter
            (hf.symm ▸ List.mem_cons_of_mem a (List.mem_cons_self b l2))
          simp only [decide_eq_true_eq] at ha hb
          exact (List.pairwise_cons.mp hpw).1 b (List.mem_cons_self b l2) (ha.trans hb.symm)
    have happ := List.Sublist.append hfil (ih fun q hq => h q (List.mem_cons_of_mem _ hq))
    simpa [contrib] using happ

/-- C4: every per-instrument timeline built from the sorted beats of a scan
is strictly ascending and an order-preserving subsequence (a sublist) of the
sorted beat-tick sequence. -/
theorem beats_by_instrument_spec (tracks : List (List Message)) :
    ∀ pr ∈ beats_by_instrument (sortBeats (process_tracks tracks).beats),
      List.Sorted (· < ·) pr.2 ∧
        pr.2.Sublist ((sortBeats (process_tracks tracks).beats).map Prod.fst) := by
  intro pr hpr
  obtain ⟨hinv, hnodup⟩ :=
    process_tracks_beats_aux tracks initState (by simp [initState]) (by simp [initState])
  have hperm := sortBeats_perm (process_tracks tracks).beats
  have hinvS : ∀ p ∈ sortBeats (process_tracks tracks).beats,
      p.2.Pairwise fun a b => a.note ≠ b.note :=
    fun p hp => (hinv p (hperm.mem_iff.mp hp)).2
  have hkeys : ((sortBeats (process_tracks tracks).beats).map Prod.fst).Pairwise (· < ·) :=
    sortBeats_keys_lt _ hnodup
  have hchar : pr.2 = contrib pr.1 (sortBeats (process_tracks tracks).beats) := by
    have h1 := getTimeline_of_mem _ (beats_by_instrument_keys_nodup _) pr hpr
    have h2 := beats_by_instrument_fold (sortBeats (process_tracks tracks).beats) pr.1 []
    rw [← h1]
    show getTimeline
      ((sortBeats (process_tracks tracks).beats).foldl
        (fun insts p => p.2.foldl (fun a m => addInst a m.note p.1) insts) []) pr.1 = _
    rw [h2]
    simp [getTimeline]
  have hsub : pr.2.Sublist ((sortBeats (process_tracks tracks).beats).map Prod.fst) := by
    rw [hchar]
    exact contrib_sublist pr.1 _ hinvS
  exact ⟨List.Pairwise.sublist hsub hkeys, hsub⟩

/-- Witness for C4: on a scan yielding beats at ticks 0 and 500, instrument
38's timeline `[0, 500]` is ascending and a sublist of the tick keys. -/
theorem beats_by_instrument_spec_witness :
    List.Sorted (· < ·) ([0, 500] : List Nat) ∧
      ([0, 500] : List Nat).Sublist
        ((sortBeats (process_tracks
          [[Message.noteOn 0 9 38 100, Message.noteOn 500 9 38 100,
            Message.noteOn 0 9 42 100]]).beats).map Prod.fst) :=
  beats_by_instrument_spec
    [[Message.noteOn 0 9 38 100, Message.noteOn 500 9 38 100, Message.noteOn 0 9 42 100]]
    (38, [0, 500]) (by decide)
